import Mathlib

/-!
Shallow embedding of the Currency-to-Yen extension core.

Detection layer (`src/content/tooltip.ts`, detection half): the six regular
expressions of `CURRENCY_PATTERNS` are hand-compiled into backtracking
matchers over `List Char`; `detectCurrencies` mirrors the scan /
overlap-rejection / sort pipeline of tooltip.ts lines 367-412.

Rate layer (the service worker): `getExchangeRates` and `convertToYen`
are modelled as pure functions over an explicit environment (clock, cache
tiers, fetch result) so that fetch counts and cache promotion can be
stated.  JavaScript numbers are modelled as exact rationals; string
indices are character indices (all characters involved are in the BMP, so
they coincide with JS UTF-16 indices on the inputs the theorems use).
-/

namespace CurrencyToYen

/-- JS regex `\d`: the ASCII digits. -/
def isDigitChar (c : Char) : Bool :=
  48 ≤ c.toNat && c.toNat ≤ 57

/-- JS regex word character (for `\b`): `[A-Za-z0-9_]`. -/
def isWordChar (c : Char) : Bool :=
  isDigitChar c || (65 ≤ c.toNat && c.toNat ≤ 90) || (97 ≤ c.toNat && c.toNat ≤ 122)
    || c.toNat = 95

/-- JS regex `\s` (also the set stripped by `String.prototype.trim`):
WhiteSpace plus LineTerminator code points. -/
def isSpaceChar (c : Char) : Bool :=
  c.toNat = 9 || c.toNat = 10 || c.toNat = 11 || c.toNat = 12 || c.toNat = 13
    || c.toNat = 32 || c.toNat = 160 || c.toNat = 5760
    || (8192 ≤ c.toNat && c.toNat ≤ 8202)
    || c.toNat = 8232 || c.toNat = 8233 || c.toNat = 8239 || c.toNat = 8287
    || c.toNat = 12288 || c.toNat = 65279

/-- The character class `[\d,]` used by every numeric span. -/
def isDigitOrComma (c : Char) : Bool :=
  isDigitChar c || c = ','

/-- ASCII upper-casing, the canonicalisation used by the `i` flag on the
ASCII letters appearing in the patterns. -/
def toUpperAscii (c : Char) : Char :=
  if 97 ≤ c.toNat ∧ c.toNat ≤ 122 then Char.ofNat (c.toNat - 32) else c

/-- Length of the maximal run of characters satisfying `p`. -/
def runLen (p : Char → Bool) (l : List Char) : ℕ :=
  (l.takeWhile p).length

/-- The substring of `s` starting at `i` of length `n` (JS `substring`). -/
def slice (s : List Char) (i n : ℕ) : List Char :=
  (s.drop i).take n

/-- Is the character at index `i` a word character (out of range counts as
non-word, as in JS `\b`). -/
def wordAt (s : List Char) (i : ℕ) : Bool :=
  match s.get? i with
  | some c => isWordChar c
  | none => false

/-- JS regex word boundary `\b` at position `i`. -/
def boundaryAt (s : List Char) (i : ℕ) : Bool :=
  (if i = 0 then false else wordAt s (i - 1)) != wordAt s i

/-- Case-insensitive literal match of `w` at position `i` of `s`. -/
def matchLitCI (s : List Char) : ℕ → List Char → Bool
  | _, [] => true
  | i, c :: cs =>
    match s.get? i with
    | some d => (toUpperAscii d = toUpperAscii c) && matchLitCI s (i + 1) cs
    | none => false

/-- Number of `\s` characters consumed by a greedy `\s*` at position `i`. -/
def spaceRunAt (s : List Char) (i : ℕ) : ℕ :=
  runLen isSpaceChar (s.drop i)

/-- Candidate lengths, in backtracking priority order, for the greedy
optional fraction `(?:\.\d{1,2})?` starting at position `p`. -/
def fracCands (s : List Char) (p : ℕ) : List ℕ :=
  if s.get? p = some '.' then
    if (s.get? (p + 1)).any isDigitChar then
      if (s.get? (p + 2)).any isDigitChar then [3, 2, 0] else [2, 0]
    else [0]
  else [0]

/-- Given that `[\d,]` matched exactly `k` characters at `i`, try the
fraction alternatives and the closing `\b`; returns the total length of
`[\d,]{k}(?:\.\d{1,2})?` on success. -/
def numTailTry (s : List Char) (i k : ℕ) : Option ℕ :=
  (fracCands s (i + k)).findSome? fun f =>
    if boundaryAt s (i + k + f) then some (k + f) else none

/-- Backtracking over the greedy `[\d,]{1,15}`: try `k` characters, largest
first. -/
def numTailGo (s : List Char) (i : ℕ) : ℕ → Option ℕ
  | 0 => none
  | k + 1 =>
    match numTailTry s i (k + 1) with
    | some r => some r
    | none => numTailGo s i k

/-- The numeric tail `([\d,]{1,15}(?:\.\d{1,2})?)\b` shared by the currency
patterns, matched greedily with backtracking at position `i`; returns the
length of the captured numeric group. -/
def numTailAt (s : List Char) (i : ℕ) : Option ℕ :=
  numTailGo s i (min 15 (runLen isDigitOrComma (s.drop i)))

/-- The 16 supported currency codes (`CurrencyCode` in types/currency.ts). -/
inductive CurrencyCode where
  | USD | EUR | GBP | CNY | KRW
  | AUD | CAD | CHF | HKD | SGD
  | TWD | THB | INR | PHP | MYR
  | JPY
deriving DecidableEq, Repr

open CurrencyCode

/-- A raw regex match: the length of `match[0]`, the currency code derived
by the rule's `getCode` (total on every match the rules produce), and the
captured numeric group handed to `parseAmount`. -/
structure RawMatch where
  len : ℕ
  code : CurrencyCode
  amountStr : List Char
deriving DecidableEq, Repr

/-- The alternation `(?:US|HK|AU|CA|SG|NT|A|C|S)` of pattern 1, in regex
order, each paired with the code assigned by `getCode`'s mapping table
(US→USD, HK→HKD, AU/A→AUD, CA/C→CAD, SG/S→SGD, NT→TWD). -/
def dollarPrefixes : List (List Char × CurrencyCode) :=
  [(['U', 'S'], USD), (['H', 'K'], HKD), (['A', 'U'], AUD), (['C', 'A'], CAD),
   (['S', 'G'], SGD), (['N', 'T'], TWD), (['A'], AUD), (['C'], CAD), (['S'], SGD)]

/-- Pattern 1 `(?:US|HK|AU|CA|SG|NT|A|C|S)\$\s*([\d,]{1,15}(?:\.\d{1,2})?)\b`
(flags `gi`): try the alternatives in order with full backtracking into the
numeric tail. -/
def p1Go (s : List Char) (i : ℕ) : List (List Char × CurrencyCode) → Option RawMatch
  | [] => none
  | (p, c) :: rest =>
    if matchLitCI s i p ∧ s.get? (i + p.length) = some '$' then
      match numTailAt s (i + p.length + 1 + spaceRunAt s (i + p.length + 1)) with
      | some n =>
        some ⟨p.length + 1 + spaceRunAt s (i + p.length + 1) + n, c,
          slice s (i + p.length + 1 + spaceRunAt s (i + p.length + 1)) n⟩
      | none => p1Go s i rest
    else p1Go s i rest

/-- Match of pattern 1 starting exactly at position `i`. -/
def p1MatchAt (s : List Char) (i : ℕ) : Option RawMatch :=
  p1Go s i dollarPrefixes

/-- The `SYMBOL_TO_CODE` lookup restricted to the class `[$€£₩₹₱฿]` of
pattern 2. -/
def symbolCode (c : Char) : Option CurrencyCode :=
  if c = '$' then some USD
  else if c = '€' then some EUR
  else if c = '£' then some GBP
  else if c = '₩' then some KRW
  else if c = '₹' then some INR
  else if c = '₱' then some PHP
  else if c = '฿' then some THB
  else none

/-- Pattern 2 `([$€£₩₹₱฿])\s*([\d,]{1,15}(?:\.\d{1,2})?)\b` (flag `g`). -/
def p2MatchAt (s : List Char) (i : ℕ) : Option RawMatch :=
  match s.get? i with
  | some c =>
    match symbolCode c with
    | some code =>
      match numTailAt s (i + 1 + spaceRunAt s (i + 1)) with
      | some n =>
        some ⟨1 + spaceRunAt s (i + 1) + n, code, slice s (i + 1 + spaceRunAt s (i + 1)) n⟩
      | none => none
    | none => none
  | none => none

/-- The ISO-code alternation of patterns 3 and 4, in regex order; `getCode`
upper-cases the capture, which recovers exactly the listed code. -/
def isoCodes : List (List Char × CurrencyCode) :=
  [(['U', 'S', 'D'], USD), (['E', 'U', 'R'], EUR), (['G', 'B', 'P'], GBP),
   (['C', 'N', 'Y'], CNY), (['K', 'R', 'W'], KRW), (['A', 'U', 'D'], AUD),
   (['C', 'A', 'D'], CAD), (['C', 'H', 'F'], CHF), (['H', 'K', 'D'], HKD),
   (['S', 'G', 'D'], SGD), (['T', 'W', 'D'], TWD), (['T', 'H', 'B'], THB),
   (['I', 'N', 'R'], INR), (['P', 'H', 'P'], PHP), (['M', 'Y', 'R'], MYR)]

/-- Pattern 3, code alternatives tried after the numeric group (length
`numLen`) and the `sp` characters of `\s*`, each followed by the closing
`\b`. -/
def p3TryCode (s : List Char) (i numLen sp : ℕ) : List (List Char × CurrencyCode) → Option RawMatch
  | [] => none
  | (w, c) :: rest =>
    if matchLitCI s (i + numLen + sp) w ∧ boundaryAt s (i + numLen + sp + w.length) then
      some ⟨numLen + sp + w.length, c, slice s i numLen⟩
    else p3TryCode s i numLen sp rest

/-- Pattern 3, fraction alternatives for a fixed integer-part length `k`. -/
def p3TryFrac (s : List Char) (i k : ℕ) : List ℕ → Option RawMatch
  | [] => none
  | f :: rest =>
    match p3TryCode s i (k + f) (spaceRunAt s (i + k + f)) isoCodes with
    | some m => some m
    | none => p3TryFrac s i k rest

/-- Pattern 3, backtracking over the greedy `[\d,]{1,15}`. -/
def p3Go (s : List Char) (i : ℕ) : ℕ → Option RawMatch
  | 0 => none
  | k + 1 =>
    match p3TryFrac s i (k + 1) (fracCands s (i + k + 1)) with
    | some m => some m
    | none => p3Go s i k

/-- Pattern 3
`\b([\d,]{1,15}(?:\.\d{1,2})?)\s*(USD|EUR|GBP|CNY|KRW|AUD|CAD|CHF|HKD|SGD|TWD|THB|INR|PHP|MYR)\b`
(flags `gi`), amount-then-code. -/
def p3MatchAt (s : List Char) (i : ℕ) : Option RawMatch :=
  if boundaryAt s i then
    p3Go s i (min 15 (runLen isDigitOrComma (s.drop i)))
  else none

/-- Pattern 4 `\b(USD|…|MYR)\s*([\d,]{1,15}(?:\.\d{1,2})?)\b` (flags `gi`),
code-then-amount. -/
def p4Go (s : List Char) (i : ℕ) : List (List Char × CurrencyCode) → Option RawMatch
  | [] => none
  | (w, c) :: rest =>
    if matchLitCI s i w then
      match numTailAt s (i + w.length + spaceRunAt s (i + w.length)) with
      | some n =>
        some ⟨w.length + spaceRunAt s (i + w.length) + n, c,
          slice s (i + w.length + spaceRunAt s (i + w.length)) n⟩
      | none => p4Go s i rest
    else p4Go s i rest

/-- Match of pattern 4 starting exactly at `i`. -/
def p4MatchAt (s : List Char) (i : ℕ) : Option RawMatch :=
  if boundaryAt s i then p4Go s i isoCodes else none

/-- Pattern 5 `RM\s*([\d,]{1,15}(?:\.\d{1,2})?)\b` (flags `gi`), Malaysian
ringgit. -/
def p5MatchAt (s : List Char) (i : ℕ) : Option RawMatch :=
  if matchLitCI s i ['R', 'M'] then
    match numTailAt s (i + 2 + spaceRunAt s (i + 2)) with
    | some n =>
      some ⟨2 + spaceRunAt s (i + 2) + n, MYR, slice s (i + 2 + spaceRunAt s (i + 2)) n⟩
    | none => none
  else none

/-- Pattern 6 `CHF\s*([\d,]{1,15}(?:\.\d{1,2})?)\b` (flags `gi`), Swiss
franc. -/
def p6MatchAt (s : List Char) (i : ℕ) : Option RawMatch :=
  if matchLitCI s i ['C', 'H', 'F'] then
    match numTailAt s (i + 3 + spaceRunAt s (i + 3)) with
    | some n =>
      some ⟨3 + spaceRunAt s (i + 3) + n, CHF, slice s (i + 3 + spaceRunAt s (i + 3)) n⟩
    | none => none
  else none

/-- `MAX_AMOUNT` of tooltip.ts: amounts above one billion are ignored. -/
def MAX_AMOUNT : ℚ := 1000000000

/-- JS `String.prototype.trim`. -/
def trimChars (l : List Char) : List Char :=
  ((l.dropWhile isSpaceChar).reverse.dropWhile isSpaceChar).reverse

/-- The comma strip `cleaned.replace(/,/g, '')`. -/
def stripCommas (l : List Char) : List Char :=
  l.filter (fun c => c ≠ ',')

/-- Numeric value of a digit string (most significant first). -/
def digitsVal (l : List Char) : ℕ :=
  l.foldl (fun n c => 10 * n + (c.toNat - 48)) 0

/-- JS `parseFloat` on the decimal strings produced by the numeric capture
after comma removal (`digits* ('.' digits+)?` with optional trailing junk
ignored); `none` models `NaN`.  Values are exact rationals. -/
def parseFloatQ (l : List Char) : Option ℚ :=
  let intPart := l.takeWhile isDigitChar
  match l.dropWhile isDigitChar with
  | '.' :: rest =>
    let fracPart := rest.takeWhile isDigitChar
    if intPart = [] ∧ fracPart = [] then none
    else some ((digitsVal intPart : ℚ) + (digitsVal fracPart : ℚ) / 10 ^ fracPart.length)
  | _ => if intPart = [] then none else some (digitsVal intPart : ℚ)

/-- `parseAmount` of tooltip.ts lines 287-303: trim, strip commas,
`parseFloat`, and return `0` for `NaN`, non-positive, or over-`MAX_AMOUNT`
values. -/
def parseAmount (amountStr : List Char) : ℚ :=
  match parseFloatQ (stripCommas (trimChars amountStr)) with
  | none => 0
  | some amount => if amount ≤ 0 ∨ amount > MAX_AMOUNT then 0 else amount

/-- A pattern as used by the scan loop: its match attempt at a position. -/
def Matcher : Type :=
  List Char → ℕ → Option RawMatch

/-- `CURRENCY_PATTERNS` in order. -/
def matchers : List Matcher :=
  [p1MatchAt, p2MatchAt, p3MatchAt, p4MatchAt, p5MatchAt, p6MatchAt]

/-- The `while ((match = pattern.exec(text)) !== null)` loop of a `g`-flagged
regex: from position `i`, emit the leftmost match and resume just past it
(every rule's match is non-empty).  `fuel` bounds the recursion; it is
started at `s.length + 1` which covers every position. -/
def scanAux (pm : Matcher) (s : List Char) : ℕ → ℕ → List (ℕ × RawMatch)
  | 0, _ => []
  | fuel + 1, i =>
    if i > s.length then []
    else
      match pm s i with
      | some m => (i, m) :: scanAux pm s fuel (i + m.len)
      | none => scanAux pm s fuel (i + 1)

/-- All matches of a pattern over `s` starting from `lastIndex`. -/
def scanPatternFrom (pm : Matcher) (s : List Char) (lastIndex : ℕ) : List (ℕ × RawMatch) :=
  scanAux pm s (s.length + 1) lastIndex

/-- One detected currency (`DetectedCurrency` in types/currency.ts). -/
structure DetectedCurrency where
  code : CurrencyCode
  amount : ℚ
  originalText : List Char
  startIndex : ℕ
  endIndex : ℕ
deriving DecidableEq, Repr

/-- The record pushed for a raw match at index `i` (tooltip.ts lines
398-404): `originalText` is `match[0]`, i.e. the consumed slice. -/
def mkDetected (s : List Char) (i : ℕ) (m : RawMatch) : DetectedCurrency :=
  { code := m.code
    amount := parseAmount m.amountStr
    originalText := slice s i m.len
    startIndex := i
    endIndex := i + m.len }

/-- The overlap test of tooltip.ts lines 390-395 against one previously
accepted range `(start, end)`. -/
def overlapCond (st en : ℕ) (r : ℕ × ℕ) : Bool :=
  (decide (r.1 ≤ st) && decide (st < r.2))
    || (decide (r.1 < en) && decide (en ≤ r.2))
    || (decide (st ≤ r.1) && decide (r.2 ≤ en))

/-- `foundRanges.some(...)`. -/
def isOverlapping (st en : ℕ) (ranges : List (ℕ × ℕ)) : Bool :=
  ranges.any (overlapCond st en)

/-- The body of the scan loop for one pattern's match list: skip matches
with non-positive amount (`getCode` is total on every match the rules
produce, so the `!code` guard never fires), skip the reference currency,
reject overlaps, and push accepted results and ranges. -/
def processPattern (s : List Char) : List (ℕ × RawMatch) →
    List DetectedCurrency × List (ℕ × ℕ) → List DetectedCurrency × List (ℕ × ℕ)
  | [], acc => acc
  | (i, m) :: rest, acc =>
    if parseAmount m.amountStr ≤ 0 then processPattern s rest acc
    else if m.code = JPY then processPattern s rest acc
    else if isOverlapping i (i + m.len) acc.2 then processPattern s rest acc
    else processPattern s rest (acc.1 ++ [mkDetected s i m], acc.2 ++ [(i, i + m.len)])

/-- The whole pattern loop of `detectCurrencies` over a list of patterns
(each scanned from `lastIndex = 0`, the reset at tooltip.ts line 374). -/
def processAll (s : List Char) (pms : List Matcher)
    (acc : List DetectedCurrency × List (ℕ × ℕ)) : List DetectedCurrency × List (ℕ × ℕ) :=
  pms.foldl (fun a pm => processPattern s (scanPatternFrom pm s 0) a) acc

/-- Ordering used by the final `results.sort((a, b) => a.startIndex - b.startIndex)`. -/
def byStart (a b : DetectedCurrency) : Prop :=
  a.startIndex ≤ b.startIndex

instance : DecidableRel byStart :=
  fun a b => Nat.decLe a.startIndex b.startIndex

instance : IsTotal DetectedCurrency byStart :=
  ⟨fun a b => Nat.le_total a.startIndex b.startIndex⟩

instance : IsTrans DetectedCurrency byStart :=
  ⟨fun _ _ _ h h2 => Nat.le_trans h h2⟩

/-- `detectCurrencies` (tooltip.ts lines 367-412). -/
def detectCurrencies (s : List Char) : List DetectedCurrency :=
  List.insertionSort byStart (processAll s matchers ([], [])).1

/-- One pattern's scan with the module-level mutable `lastIndex` made
explicit: the incoming value is overwritten by the reset
`pattern.lastIndex = 0` (tooltip.ts line 374) before the loop, and a final
failing `exec` resets it to `0` again, which is the state left behind. -/
def runPatternStateful (pm : Matcher) (s : List Char) (_lastIndex0 : ℕ) :
    List (ℕ × RawMatch) × ℕ :=
  let lastIndex := 0
  (scanPatternFrom pm s lastIndex, 0)

/-- The stateful pattern loop, threading each regex's `lastIndex`. -/
def detectStatefulGo (s : List Char) : List Matcher → List ℕ →
    List DetectedCurrency × List (ℕ × ℕ) → (List DetectedCurrency × List (ℕ × ℕ)) × List ℕ
  | [], _, acc => (acc, [])
  | pm :: pms, sts, acc =>
    let r := runPatternStateful pm s (sts.headD 0)
    let next := detectStatefulGo s pms sts.tail (processPattern s r.1 acc)
    (next.1, r.2 :: next.2)

/-- `detectCurrencies` with the module-level regex `lastIndex` state made
explicit: takes the six incoming `lastIndex` values and returns the results
together with the outgoing values. -/
def detectCurrenciesStateful (sts : List ℕ) (s : List Char) :
    List DetectedCurrency × List ℕ :=
  (List.insertionSort byStart (detectStatefulGo s matchers sts ([], [])).1.1,
   (detectStatefulGo s matchers sts ([], [])).2)

/-- A DOM bounding client rectangle, coordinates as exact rationals. -/
structure DomRect where
  left : ℚ
  right : ℚ
  top : ℚ
  bottom : ℚ
  width : ℚ
  height : ℚ
deriving DecidableEq, Repr

/-- The slice of a DOM element observed by `detectFromTargetElement`:
tag name, the text sources probed in order, and the bounding box.
`none` models a `null` attribute; `textContent`/`innerText` are `null` for
absent nodes. -/
structure DomElement where
  tagName : List Char
  textContent : Option (List Char)
  innerText : Option (List Char)
  ariaLabel : Option (List Char)
  titleAttr : Option (List Char)
  dataValue : Option (List Char)
  dataAmount : Option (List Char)
  dataPrice : Option (List Char)
  rect : DomRect
deriving DecidableEq, Repr

/-- ASCII lower-casing (`tagName?.toLowerCase()`; the tags compared against
are ASCII). -/
def toLowerAscii (c : Char) : Char :=
  if 65 ≤ c.toNat ∧ c.toNat ≤ 90 then Char.ofNat (c.toNat + 32) else c

/-- Tags excluded outright by `detectFromTargetElement`. -/
def excludedTags : List (List Char) :=
  ["script".data, "style".data, "input".data, "textarea".data, "select".data,
   "body".data, "html".data, "head".data]

/-- The lower-cased tag name. -/
def elTag (el : DomElement) : List Char :=
  el.tagName.map toLowerAscii

/-- `isCustomElement`: the tag contains a dash (custom web component), the
`number-flow-react` comparison being subsumed. -/
def elIsCustom (el : DomElement) : Bool :=
  (elTag el).contains '-' || elTag el = "number-flow-react".data

/-- A JS truthiness-guarded attribute read: `if (attr) text = attr.trim()`
keeps the old text when the attribute is `null` or the empty string. -/
def attrOr (old : List Char) (attr : Option (List Char)) : List Char :=
  match attr with
  | some l => if l = [] then old else trimChars l
  | none => old

/-- The JS `||` chain over attribute reads: the first non-`null`,
non-empty string. -/
def firstTruthyAttr : List (Option (List Char)) → Option (List Char)
  | [] => none
  | some l :: rest => if l = [] then firstTruthyAttr rest else some l
  | none :: rest => firstTruthyAttr rest

/-- The text `detectFromTargetElement` ends up scanning: `textContent`,
then (for custom elements) `innerText`, then `aria-label`, `title` and the
`data-value`/`data-amount`/`data-price` chain, each fallback taken only
while the text so far is shorter than 2 characters. -/
def elementText (el : DomElement) : List Char :=
  let text0 := (el.textContent.map trimChars).getD []
  let text1 := if text0 = [] ∧ elIsCustom el then (el.innerText.map trimChars).getD [] else text0
  let text2 := if text1.length < 2 then attrOr text1 el.ariaLabel else text1
  let text3 := if text2.length < 2 then attrOr text2 el.titleAttr else text2
  if text3.length < 2 then
    attrOr text3 (firstTruthyAttr [el.dataValue, el.dataAmount, el.dataPrice])
  else text3

/-- The `maxLength` text bound of `detectFromTargetElement`: 100 characters
for custom elements, 50 otherwise. -/
def elMaxLength (el : DomElement) : ℕ :=
  if elIsCustom el then 100 else 50

/-- The `maxWidth` size bound of `detectFromTargetElement`: 200 logical
units for custom elements, 150 otherwise (`maxHeight` is the constant 60). -/
def elMaxWidth (el : DomElement) : ℚ :=
  if elIsCustom el then 200 else 150

/-- `detectFromTargetElement` (tooltip.ts lines 477-558): tag filter, text
extraction with fallbacks, text-length bound, element-size bound
(`maxHeight = 60` for every element), the `padding = 5` point-in-box test,
then the first detected currency of the text. -/
def detectFromTargetElement (el : DomElement) (x y : ℚ) : Option DetectedCurrency :=
  if excludedTags.contains (elTag el) then none
  else if (elementText el).length < 1 ∨ (elementText el).length > elMaxLength el then none
  else if el.rect.width > elMaxWidth el ∨ el.rect.height > (60 : ℚ) then none
  else if x ≥ el.rect.left - 5 ∧ x ≤ el.rect.right + 5 ∧
      y ≥ el.rect.top - 5 ∧ y ≤ el.rect.bottom + 5 then
    (detectCurrencies (elementText el)).head?
  else none

/-- `CACHE_DURATION`: one hour, in milliseconds. -/
def CACHE_DURATION : ℕ :=
  60 * 60 * 1000

/-- A cached rate table (`CachedRates`): rates keyed by currency-code
string (the JS object maps arbitrary string keys), the quote date of the
remote source, and the fetch timestamp. -/
structure CachedRates where
  rates : List Char → Option ℚ
  date : List Char
  fetchedAt : ℕ

/-- The parsed remote response (`ExchangeRateResponse`). -/
structure ExchangeRateResponse where
  amount : ℚ
  base : List Char
  date : List Char
  rates : List (List Char × ℚ)

/-- The two cache tiers: the in-process `memoryCache` slot and the table
held under the `cachedRates` key of the persisted store. -/
structure CacheState where
  memoryCache : Option CachedRates
  storedRates : Option CachedRates

/-- The I/O environment of one `getExchangeRates` call: whether the
persisted-store read and write throw, and the remote fetch outcome
(`none` models a network failure or non-2xx response). -/
structure RateWorld where
  storageReadFails : Bool
  storageWriteFails : Bool
  fetchResponse : Option ExchangeRateResponse

/-- Errors surfaced by the rate layer: the fetch failure thrown by
`getExchangeRates` and the unsupported-currency failure thrown by
`convertToYen`. -/
inductive RateError where
  | apiError
  | unsupportedCurrency (code : List Char)
deriving DecidableEq, Repr

/-- Outcome of one `getExchangeRates` call: the returned table or error,
the cache tiers afterwards, and how many remote fetches and persisted-store
reads were performed. -/
structure GetRatesOutcome where
  result : Except RateError CachedRates
  state : CacheState
  fetches : ℕ
  storageReads : ℕ

/-- The empty rates object `{}`. -/
def emptyRates : List Char → Option ℚ :=
  fun _ => none

/-- The object assignment `rates[code] = v`. -/
def setRate (f : List Char → Option ℚ) (c : List Char) (v : ℚ) : List Char → Option ℚ :=
  fun c2 => if c2 = c then some v else f c2

/-- The inversion loop of `getExchangeRates`: for every `[code, rate]` of
`Object.entries(data.rates)`, assign `rates[code] = 1 / rate`. -/
def invertRates (entries : List (List Char × ℚ)) : List Char → Option ℚ :=
  entries.foldl (fun f e => setRate f e.1 (1 / e.2)) emptyRates

/-- The key of the reference currency. -/
def jpyKey : List Char :=
  "JPY".data

/-- Step 2 of `getExchangeRates` (part_000 lines 34-47): the persisted-store
read inside `try`/`catch`; a throwing read is caught and treated as a miss,
as is a missing or stale stored table. -/
def tryStorage (w : RateWorld) (now : ℕ) (st : CacheState) : Option CachedRates :=
  if w.storageReadFails then none
  else
    match st.storedRates with
    | some cached => if now - cached.fetchedAt < CACHE_DURATION then some cached else none
    | none => none

/-- The `cachedRates` record built from a successful response: every
returned factor inverted (`rates[code] = 1 / rate`), then the reference
self-entry `rates[JPY] = 1`, the response date, and `fetchedAt = now`. -/
def builtTable (data : ExchangeRateResponse) (now : ℕ) : CachedRates :=
  ⟨setRate (invertRates data.rates) jpyKey 1, data.date, now⟩

/-- Step 3 of `getExchangeRates` (part_000 lines 49-88): the single remote
fetch, the rate inversion, the `JPY → 1` self-entry, the `fetchedAt = now`
stamp, the memory-tier store, and the `try`/`catch`-guarded persisted-tier
store whose failure is swallowed. -/
def fetchAndStore (w : RateWorld) (now : ℕ) (st : CacheState) : GetRatesOutcome :=
  match w.fetchResponse with
  | none => ⟨.error .apiError, st, 1, 1⟩
  | some data =>
    ⟨.ok (builtTable data now),
     { memoryCache := some (builtTable data now)
       storedRates := if w.storageWriteFails then st.storedRates
         else some (builtTable data now) },
     1, 1⟩

/-- Steps 2-3 of `getExchangeRates`: reached when the memory tier misses;
performs exactly one persisted-store read, promotes a fresh stored table
into the memory slot, and otherwise fetches. -/
def getRatesSlow (w : RateWorld) (now : ℕ) (st : CacheState) : GetRatesOutcome :=
  match tryStorage w now st with
  | some cached => ⟨.ok cached, { st with memoryCache := some cached }, 0, 1⟩
  | none => fetchAndStore w now st

/-- `getExchangeRates` (part_000 lines 27-89): memory tier first
(`Date.now() - fetchedAt < CACHE_DURATION`; JS negative differences compare
below the duration exactly as the truncated ℕ subtraction does), then the
persisted tier, then the remote fetch. -/
def getExchangeRates (w : RateWorld) (now : ℕ) (st : CacheState) : GetRatesOutcome :=
  match st.memoryCache with
  | some c =>
    if now - c.fetchedAt < CACHE_DURATION then ⟨.ok c, st, 0, 0⟩
    else getRatesSlow w now st
  | none => getRatesSlow w now st

/-- A successful conversion result (`{ yen, rate, date }`). -/
structure ConvertResult where
  yen : ℚ
  rate : ℚ
  date : List Char
deriving DecidableEq, Repr

/-- The conversion step of `convertToYen` (part_000 lines 100-107) against
a given rate table: `const rate = rates[fromCurrency]; if (!rate) throw`.
JS `!rate` is true both for a missing entry (`undefined`) and for a zero
rate, so both are rejected; otherwise `yen = amount * rate`, unrounded. -/
def convertWithTable (t : CachedRates) (amount : ℚ) (fromCurrency : List Char) :
    Except RateError ConvertResult :=
  match t.rates fromCurrency with
  | none => .error (.unsupportedCurrency fromCurrency)
  | some rate =>
    if rate = 0 then .error (.unsupportedCurrency fromCurrency)
    else .ok ⟨amount * rate, rate, t.date⟩

/-- `convertToYen` (part_000 lines 94-108): obtain the current table via
`getExchangeRates`, then convert; a fetch failure propagates. -/
def convertToYen (w : RateWorld) (now : ℕ) (st : CacheState) (amount : ℚ)
    (fromCurrency : List Char) : Except RateError ConvertResult × CacheState :=
  let o := getExchangeRates w now st
  match o.result with
  | .error e => (.error e, o.state)
  | .ok t => (convertWithTable t amount fromCurrency, o.state)

/-- The span `[startIndex, endIndex)` of a detected currency. -/
def spanOf (d : DetectedCurrency) : ℕ × ℕ :=
  (d.startIndex, d.endIndex)

/-- Disjointness of the half-open spans of two detected currencies. -/
def disjointDC (a b : DetectedCurrency) : Prop :=
  a.endIndex ≤ b.startIndex ∨ b.endIndex ≤ a.startIndex

/-- The record invariants of an accepted detection over text `s`. -/
def GoodDC (s : List Char) (d : DetectedCurrency) : Prop :=
  0 < d.amount ∧ d.amount ≤ MAX_AMOUNT ∧ d.code ≠ JPY ∧
    d.startIndex < d.endIndex ∧
    d.originalText = slice s d.startIndex (d.endIndex - d.startIndex) ∧
    d.originalText.length = d.endIndex - d.startIndex

/-- Invariant of the `(results, foundRanges)` accumulator of
`detectCurrencies`: the ranges list mirrors the results list, every result
satisfies the record invariants, and results are pairwise disjoint. -/
def GoodAcc (s : List Char) (acc : List DetectedCurrency × List (ℕ × ℕ)) : Prop :=
  acc.2 = acc.1.map spanOf ∧ (∀ d ∈ acc.1, GoodDC s d) ∧ List.Pairwise disjointDC acc.1

/-- Structural facts about a scanned match list: every match is non-empty
and stays inside the text. -/
def MatchListOk (s : List Char) (ms : List (ℕ × RawMatch)) : Prop :=
  ∀ im ∈ ms, 1 ≤ im.2.len ∧ im.1 + im.2.len ≤ s.length

/-- Spec scenario text for the priority claim. -/
def exText : List Char :=
  "US$100 and HK$100".data

/-- Expected first detection of `exText`. -/
def exUSD : DetectedCurrency :=
  ⟨USD, 100, "US$100".data, 0, 6⟩

/-- Expected second detection of `exText`. -/
def exHKD : DetectedCurrency :=
  ⟨HKD, 100, "HK$100".data, 11, 17⟩

/-- The raw pattern-1 match underlying `exUSD`. -/
def exRawUSD : RawMatch :=
  ⟨6, USD, "100".data⟩

/-- A rate table whose `USD` entry is zero (as a stored table could hold,
e.g. after the remote factor overflowed to infinity and was inverted). -/
def zeroRateTable : CachedRates :=
  ⟨fun c => if c = "USD".data then some 0 else none, "2024-01-01".data, 0⟩

/-- A rate table carrying the spec's scenario rate `USD → 150`. -/
def demoTable : CachedRates :=
  ⟨fun c => if c = "USD".data then some 150 else none, "2024-01-01".data, 0⟩

/-- A remote response quoting `1 JPY = 1/150 USD`. -/
def demoResponse : ExchangeRateResponse :=
  ⟨1, jpyKey, "2024-01-01".data, [("USD".data, 1 / 150)]⟩

/-- An environment whose fetch succeeds with `demoResponse` and whose
storage works. -/
def demoWorld : RateWorld :=
  ⟨false, false, some demoResponse⟩

/-- Both cache tiers empty. -/
def emptyState : CacheState :=
  ⟨none, none⟩

/-- A table fetched at time 1000. -/
def freshTable : CachedRates :=
  ⟨fun _ => some 1, "2024-01-01".data, 1000⟩

/-- A small element showing `$100`, hovered at an interior point. -/
def demoElement : DomElement :=
  ⟨"span".data, some "$100".data, none, none, none, none, none, none,
   ⟨0, 50, 0, 20, 50, 20⟩⟩

/-- The text of spec scenario 1 (simplified to an integral amount). -/
def exDollar : List Char :=
  "$100".data

/-- The detection produced for `exDollar`. -/
def exDollarUSD : DetectedCurrency :=
  ⟨USD, 100, "$100".data, 0, 4⟩

/-- A text on which a lower-priority rule's candidate survives an overlap
with a higher-priority rule's candidate: the bare-symbol match `$100`
blocks the amount-then-code candidate `100 USD`, and the code-then-amount
candidate `USD 200`, which overlaps the latter, is then retained. -/
def cexText : List Char :=
  "$100 USD 200".data

/-- The pattern-3 (amount-then-code) candidate `100 USD` of `cexText`,
spanning `[1, 8)`. -/
def cexP3 : RawMatch :=
  ⟨7, USD, "100".data⟩

/-- The pattern-4 (code-then-amount) candidate `USD 200` of `cexText`,
spanning `[5, 12)`. -/
def cexP4 : RawMatch :=
  ⟨7, USD, "200".data⟩

theorem runLen_le (p : Char → Bool) (l : List Char) : runLen p l ≤ l.length :=
  (l.takeWhile_prefix p).length_le

theorem spaceRunAt_le {s : List Char} {i : ℕ} (h : i ≤ s.length) :
    i + spaceRunAt s i ≤ s.length := by
  have h2 := runLen_le isSpaceChar (s.drop i)
  rw [List.length_drop] at h2
  unfold spaceRunAt
  omega

theorem lt_length_of_get? {s : List Char} {i : ℕ} {c : Char} (h : s.get? i = some c) :
    i < s.length := by
  rw [List.get?_eq_some] at h
  exact h.1

theorem numTailTry_spec {s : List Char} {i k r : ℕ} (h : numTailTry s i k = some r) :
    ∃ f ∈ fracCands s (i + k), r = k + f := by
  obtain ⟨f, hf, hsome⟩ := List.exists_of_findSome?_eq_some h
  by_cases hb : boundaryAt s (i + k + f) = true
  · rw [if_pos hb] at hsome
    exact ⟨f, hf, (Option.some.inj hsome).symm⟩
  · rw [if_neg hb] at hsome
    cases hsome

theorem fracCands_spec {s : List Char} {p f : ℕ} :
    f ∈ fracCands s p → f = 0 ∨ (0 < f ∧ p + f ≤ s.length) := by
  unfold fracCands
  by_cases hdot : s.get? p = some '.'
  · rw [if_pos hdot]
    cases h1 : (s.get? (p + 1)).any isDigitChar with
    | false => intro h; simp at h; exact Or.inl h
    | true =>
      have hp1 : p + 2 ≤ s.length := by
        cases hg : s.get? (p + 1) with
        | none => rw [hg] at h1; simp [Option.any] at h1
        | some d => have := lt_length_of_get? hg; omega
      cases h2 : (s.get? (p + 2)).any isDigitChar with
      | false =>
        intro h; simp at h
        rcases h with h | h
        · subst h; exact Or.inr ⟨by omega, by omega⟩
        · exact Or.inl h
      | true =>
        have hp2 : p + 3 ≤ s.length := by
          cases hg : s.get? (p + 2) with
          | none => rw [hg] at h2; simp [Option.any] at h2
          | some d => have := lt_length_of_get? hg; omega
        intro h; simp at h
        rcases h with h | h | h
        · subst h; exact Or.inr ⟨by omega, by omega⟩
        · subst h; exact Or.inr ⟨by omega, by omega⟩
        · exact Or.inl h
  · rw [if_neg hdot]; intro h; simp at h; exact Or.inl h

theorem numTailGo_spec {s : List Char} {i n : ℕ} :
    ∀ {k}, numTailGo s i k = some n →
      ∃ k0 f, 1 ≤ k0 ∧ k0 ≤ k ∧ f ∈ fracCands s (i + k0) ∧ n = k0 + f := by
  intro k
  induction k with
  | zero => intro h; cases h
  | succ k ih =>
    intro h
    unfold numTailGo at h
    cases htry : numTailTry s i (k + 1) with
    | some r =>
      rw [htry] at h
      have hn : r = n := Option.some.inj h
      obtain ⟨f, hf, hr⟩ := numTailTry_spec htry
      exact ⟨k + 1, f, by omega, le_refl _, hf, by omega⟩
    | none =>
      rw [htry] at h
      obtain ⟨k0, f, h1, h2, h3, h4⟩ := ih h
      exact ⟨k0, f, h1, by omega, h3, h4⟩

theorem numTailAt_spec {s : List Char} {i n : ℕ} (h : numTailAt s i = some n) :
    ∃ k0 f, 1 ≤ k0 ∧ k0 ≤ runLen isDigitOrComma (s.drop i) ∧
      f ∈ fracCands s (i + k0) ∧ n = k0 + f := by
  obtain ⟨k0, f, h1, h2, h3, h4⟩ := numTailGo_spec h
  exact ⟨k0, f, h1, le_trans h2 (le_trans (min_le_right _ _) (le_refl _)), h3, h4⟩

theorem numTailAt_pos {s : List Char} {i n : ℕ} (h : numTailAt s i = some n) : 1 ≤ n := by
  obtain ⟨k0, f, h1, _, _, h4⟩ := numTailAt_spec h
  omega

theorem numTailAt_bound {s : List Char} {i n : ℕ} (hi : i ≤ s.length)
    (h : numTailAt s i = some n) : i + n ≤ s.length := by
  obtain ⟨k0, f, h1, h2, h3, h4⟩ := numTailAt_spec h
  have hrun := runLen_le isDigitOrComma (s.drop i)
  rw [List.length_drop] at hrun
  rcases fracCands_spec h3 with hf | ⟨_, hf⟩ <;> omega

theorem matchLitCI_bound {s w : List Char} :
    ∀ {i}, w ≠ [] → matchLitCI s i w = true → i + w.length ≤ s.length := by
  induction w with
  | nil => intro i h; exact absurd rfl h
  | cons c cs ih =>
    intro i _ h
    unfold matchLitCI at h
    cases hg : s.get? i with
    | none => rw [hg] at h; cases h
    | some d =>
      rw [hg] at h
      have hlt := lt_length_of_get? hg
      simp only [Bool.and_eq_true] at h
      obtain ⟨_, htail⟩ := h
      cases cs with
      | nil => simpa using hlt
      | cons c2 cs2 =>
        have := ih (by simp) htail
        simp only [List.length_cons] at *
        omega

theorem p1Go_spec {s : List Char} {i : ℕ} {m : RawMatch} :
    ∀ {l}, p1Go s i l = some m →
      ∃ p c, (p, c) ∈ l ∧ m.code = c ∧ s.get? (i + p.length) = some '$' ∧
        ∃ n, numTailAt s (i + p.length + 1 + spaceRunAt s (i + p.length + 1)) = some n ∧
          m.len = p.length + 1 + spaceRunAt s (i + p.length + 1) + n := by
  intro l
  induction l with
  | nil => intro h; cases h
  | cons pc rest ih =>
    obtain ⟨p, c⟩ := pc
    intro h
    unfold p1Go at h
    split at h
    next hcond =>
      split at h
      next n hnt =>
        have hm := Option.some.inj h
        refine ⟨p, c, List.mem_cons_self _ _, ?_, hcond.2, n, hnt, ?_⟩
        · rw [← hm]
        · rw [← hm]
      next hnt =>
        obtain ⟨p2, c2, hmem, rest2⟩ := ih h
        exact ⟨p2, c2, List.mem_cons_of_mem _ hmem, rest2⟩
    next hcond =>
      obtain ⟨p2, c2, hmem, rest2⟩ := ih h
      exact ⟨p2, c2, List.mem_cons_of_mem _ hmem, rest2⟩

theorem p1_props {s : List Char} {i : ℕ} {m : RawMatch} (h : p1MatchAt s i = some m) :
    1 ≤ m.len ∧ i + m.len ≤ s.length ∧ m.code ≠ JPY := by
  obtain ⟨p, c, hmem, hcode, hdollar, n, hnt, hlen⟩ := p1Go_spec h
  have hd := lt_length_of_get? hdollar
  have hj : i + p.length + 1 ≤ s.length := by omega
  have hsp := spaceRunAt_le hj
  have hb := numTailAt_bound hsp hnt
  have hp := numTailAt_pos hnt
  refine ⟨by omega, by omega, ?_⟩
  rw [hcode]
  have : ∀ pc ∈ dollarPrefixes, (pc : List Char × CurrencyCode).2 ≠ JPY := by decide
  exact this (p, c) hmem

theorem symbolCode_ne_JPY {c : Char} {code : CurrencyCode} (h : symbolCode c = some code) :
    code ≠ JPY := by
  unfold symbolCode at h
  split_ifs at h <;> simp_all <;> subst h <;> decide

theorem p2_props {s : List Char} {i : ℕ} {m : RawMatch} (h : p2MatchAt s i = some m) :
    1 ≤ m.len ∧ i + m.len ≤ s.length ∧ m.code ≠ JPY := by
  unfold p2MatchAt at h
  split at h
  next c hg =>
    split at h
    next code hsym =>
      split at h
      next n hnt =>
        have hm := Option.some.inj h
        have hlt := lt_length_of_get? hg
        have hj : i + 1 ≤ s.length := by omega
        have hsp := spaceRunAt_le hj
        have hb := numTailAt_bound hsp hnt
        have hp := numTailAt_pos hnt
        refine ⟨?_, ?_, ?_⟩
        · rw [← hm]; simp only []; omega
        · rw [← hm]; simp only []; omega
        · rw [← hm]; exact symbolCode_ne_JPY hsym
      next => cases h
    next => cases h
  next => cases h

theorem p3TryCode_spec {s : List Char} {i numLen sp : ℕ} {m : RawMatch} :
    ∀ {l}, p3TryCode s i numLen sp l = some m →
      ∃ w c, (w, c) ∈ l ∧ m.code = c ∧ matchLitCI s (i + numLen + sp) w = true ∧
        m.len = numLen + sp + w.length := by
  intro l
  induction l with
  | nil => intro h; cases h
  | cons wc rest ih =>
    obtain ⟨w, c⟩ := wc
    intro h
    unfold p3TryCode at h
    by_cases hcond : matchLitCI s (i + numLen + sp) w = true ∧
        boundaryAt s (i + numLen + sp + w.length) = true
    · rw [if_pos hcond] at h
      have hm := Option.some.inj h
      exact ⟨w, c, List.mem_cons_self _ _, by rw [← hm], hcond.1, by rw [← hm]⟩
    · rw [if_neg hcond] at h
      obtain ⟨w2, c2, hmem, rest2⟩ := ih h
      exact ⟨w2, c2, List.mem_cons_of_mem _ hmem, rest2⟩

theorem p3TryFrac_spec {s : List Char} {i k : ℕ} {m : RawMatch} :
    ∀ {fl}, p3TryFrac s i k fl = some m →
      ∃ f, p3TryCode s i (k + f) (spaceRunAt s (i + k + f)) isoCodes = some m := by
  intro fl
  induction fl with
  | nil => intro h; cases h
  | cons f rest ih =>
    intro h
    unfold p3TryFrac at h
    split at h
    next m2 htc => exact ⟨f, by rw [htc]; exact h⟩
    next htc => exact ih h

theorem p3Go_spec {s : List Char} {i : ℕ} {m : RawMatch} :
    ∀ {kk}, p3Go s i kk = some m →
      ∃ k0 f, 1 ≤ k0 ∧
        p3TryCode s i (k0 + f) (spaceRunAt s (i + k0 + f)) isoCodes = some m := by
  intro kk
  induction kk with
  | zero => intro h; cases h
  | succ k ih =>
    intro h
    unfold p3Go at h
    split at h
    next m2 htf =>
      obtain ⟨f, hf⟩ := p3TryFrac_spec htf
      exact ⟨k + 1, f, by omega, by rw [hf]; exact h⟩
    next htf => exact ih h

theorem isoCodes_nonempty_ne_JPY :
    ∀ wc ∈ isoCodes, (wc : List Char × CurrencyCode).1 ≠ [] ∧ wc.2 ≠ JPY := by
  decide

theorem p3_props {s : List Char} {i : ℕ} {m : RawMatch} (h : p3MatchAt s i = some m) :
    1 ≤ m.len ∧ i + m.len ≤ s.length ∧ m.code ≠ JPY := by
  unfold p3MatchAt at h
  split at h
  next hb =>
    obtain ⟨k0, f, hk0, htc⟩ := p3Go_spec h
    obtain ⟨w, c, hmem, hcode, hlit, hlen⟩ := p3TryCode_spec htc
    obtain ⟨hw0, hc0⟩ := isoCodes_nonempty_ne_JPY (w, c) hmem
    have hw : w ≠ [] := hw0
    have hc : c ≠ JPY := hc0
    have hbound : i + (k0 + f) + spaceRunAt s (i + k0 + f) + w.length ≤ s.length :=
      matchLitCI_bound hw hlit
    have hwlen : 1 ≤ w.length := by
      cases w with
      | nil => exact absurd rfl hw
      | cons a b => simp
    refine ⟨by omega, by omega, by rw [hcode]; exact hc⟩
  next hb => cases h

theorem p4Go_spec {s : List Char} {i : ℕ} {m : RawMatch} :
    ∀ {l}, p4Go s i l = some m →
      ∃ w c, (w, c) ∈ l ∧ m.code = c ∧ matchLitCI s i w = true ∧
        ∃ n, numTailAt s (i + w.length + spaceRunAt s (i + w.length)) = some n ∧
          m.len = w.length + spaceRunAt s (i + w.length) + n := by
  intro l
  induction l with
  | nil => intro h; cases h
  | cons wc rest ih =>
    obtain ⟨w, c⟩ := wc
    intro h
    unfold p4Go at h
    split at h
    next hcond =>
      split at h
      next n hnt =>
        have hm := Option.some.inj h
        exact ⟨w, c, List.mem_cons_self _ _, by rw [← hm], hcond, n, hnt, by rw [← hm]⟩
      next hnt =>
        obtain ⟨w2, c2, hmem, rest2⟩ := ih h
        exact ⟨w2, c2, List.mem_cons_of_mem _ hmem, rest2⟩
    next hcond =>
      obtain ⟨w2, c2, hmem, rest2⟩ := ih h
      exact ⟨w2, c2, List.mem_cons_of_mem _ hmem, rest2⟩

theorem p4_props {s : List Char} {i : ℕ} {m : RawMatch} (h : p4MatchAt s i = some m) :
    1 ≤ m.len ∧ i + m.len ≤ s.length ∧ m.code ≠ JPY := by
  unfold p4MatchAt at h
  split at h
  next hb =>
    obtain ⟨w, c, hmem, hcode, hlit, n, hnt, hlen⟩ := p4Go_spec h
    obtain ⟨hw0, hc0⟩ := isoCodes_nonempty_ne_JPY (w, c) hmem
    have hw : w ≠ [] := hw0
    have hc : c ≠ JPY := hc0
    have hbound : i + w.length ≤ s.length := matchLitCI_bound hw hlit
    have hsp := spaceRunAt_le hbound
    have hnb := numTailAt_bound hsp hnt
    have hp := numTailAt_pos hnt
    exact ⟨by omega, by omega, by rw [hcode]; exact hc⟩
  next hb => cases h

theorem p5_props {s : List Char} {i : ℕ} {m : RawMatch} (h : p5MatchAt s i = some m) :
    1 ≤ m.len ∧ i + m.len ≤ s.length ∧ m.code ≠ JPY := by
  unfold p5MatchAt at h
  split at h
  next hlit =>
    split at h
    next n hnt =>
      have hm := Option.some.inj h
      have hbound := matchLitCI_bound (by simp) hlit
      simp only [List.length_cons, List.length_nil] at hbound
      have hsp := spaceRunAt_le (show i + 2 ≤ s.length by omega)
      have hnb := numTailAt_bound hsp hnt
      have hp := numTailAt_pos hnt
      refine ⟨by rw [← hm]; simp only []; omega, by rw [← hm]; simp only []; omega, ?_⟩
      rw [← hm]
      show MYR ≠ JPY
      decide
    next => cases h
  next hlit => cases h

theorem p6_props {s : List Char} {i : ℕ} {m : RawMatch} (h : p6MatchAt s i = some m) :
    1 ≤ m.len ∧ i + m.len ≤ s.length ∧ m.code ≠ JPY := by
  unfold p6MatchAt at h
  split at h
  next hlit =>
    split at h
    next n hnt =>
      have hm := Option.some.inj h
      have hbound := matchLitCI_bound (by simp) hlit
      simp only [List.length_cons, List.length_nil] at hbound
      have hsp := spaceRunAt_le (show i + 3 ≤ s.length by omega)
      have hnb := numTailAt_bound hsp hnt
      have hp := numTailAt_pos hnt
      refine ⟨by rw [← hm]; simp only []; omega, by rw [← hm]; simp only []; omega, ?_⟩
      rw [← hm]
      show CHF ≠ JPY
      decide
    next => cases h
  next hlit => cases h

theorem matcher_props {pm : Matcher} (hpm : pm ∈ matchers) {s : List Char} {j : ℕ}
    {m : RawMatch} (h : pm s j = some m) :
    1 ≤ m.len ∧ j + m.len ≤ s.length ∧ m.code ≠ JPY := by
  simp only [matchers, List.mem_cons, List.not_mem_nil, or_false] at hpm
  rcases hpm with h1 | h1 | h1 | h1 | h1 | h1 <;> subst h1
  · exact p1_props h
  · exact p2_props h
  · exact p3_props h
  · exact p4_props h
  · exact p5_props h
  · exact p6_props h

theorem parseAmount_cases (l : List Char) :
    parseAmount l = 0 ∨ (0 < parseAmount l ∧ parseAmount l ≤ MAX_AMOUNT) := by
  cases hp : parseFloatQ (stripCommas (trimChars l)) with
  | none =>
    left
    unfold parseAmount
    rw [hp]
  | some a =>
    have hdef : parseAmount l = if a ≤ 0 ∨ a > MAX_AMOUNT then 0 else a := by
      unfold parseAmount
      rw [hp]
    rw [hdef]
    by_cases hr : a ≤ 0 ∨ a > MAX_AMOUNT
    · rw [if_pos hr]; exact Or.inl rfl
    · rw [if_neg hr]
      push_neg at hr
      exact Or.inr ⟨hr.1, hr.2⟩

theorem scanAux_mem {pm : Matcher} {s : List Char} {j : ℕ} {m : RawMatch} :
    ∀ {fuel i}, (j, m) ∈ scanAux pm s fuel i → pm s j = some m ∧ i ≤ j := by
  intro fuel
  induction fuel with
  | zero => intro i h; cases h
  | succ fuel ih =>
    intro i h
    unfold scanAux at h
    split at h
    · cases h
    · split at h
      next m0 hm0 =>
        rcases List.mem_cons.mp h with heq | htail
        · injection heq with hj hm
          subst hj; subst hm
          exact ⟨hm0, le_refl _⟩
        · obtain ⟨ha, hb⟩ := ih htail
          exact ⟨ha, by omega⟩
      next hm0 =>
        obtain ⟨ha, hb⟩ := ih h
        exact ⟨ha, by omega⟩

theorem scanAux_pairwise {pm : Matcher} {s : List Char}
    (hlen : ∀ j m, pm s j = some m → 1 ≤ m.len) :
    ∀ fuel i, List.Pairwise (fun a b => a.1 + a.2.len ≤ b.1) (scanAux pm s fuel i) := by
  intro fuel
  induction fuel with
  | zero => intro i; exact List.Pairwise.nil
  | succ fuel ih =>
    intro i
    unfold scanAux
    split
    · exact List.Pairwise.nil
    · split
      next m0 hm0 =>
        refine List.Pairwise.cons ?_ (ih (i + m0.len))
        intro b hb
        obtain ⟨j2, m2⟩ := b
        have h2 := (scanAux_mem hb).2
        show i + m0.len ≤ j2
        omega
      next hm0 => exact ih (i + 1)

theorem scanPatternFrom_ok {pm : Matcher} (hpm : pm ∈ matchers) (s : List Char) :
    MatchListOk s (scanPatternFrom pm s 0) := by
  intro im hmem
  obtain ⟨j, m⟩ := im
  unfold scanPatternFrom at hmem
  obtain ⟨hmatch, _⟩ := scanAux_mem hmem
  have hp := matcher_props hpm hmatch
  exact ⟨hp.1, hp.2.1⟩

theorem processPattern_mem_mono {s : List Char} {d : DetectedCurrency} :
    ∀ {ms acc}, d ∈ acc.1 → d ∈ (processPattern s ms acc).1 := by
  intro ms
  induction ms with
  | nil => intro acc h; simpa [processPattern]
  | cons im rest ih =>
    obtain ⟨i, m⟩ := im
    intro acc h
    unfold processPattern
    split
    · exact ih h
    · split
      · exact ih h
      · split
        · exact ih h
        · exact ih (by simp only [List.mem_append]; exact Or.inl h)

theorem not_overlap_disjoint {st en rs re : ℕ} (hr : rs < re) (hn : st < en)
    (h : overlapCond st en (rs, re) = false) : re ≤ st ∨ en ≤ rs := by
  unfold overlapCond at h
  simp only [Bool.or_eq_false_iff, Bool.and_eq_false_iff, decide_eq_false_iff_not,
    not_le, not_lt] at h
  omega

theorem isOverlapping_false {st en : ℕ} {ranges : List (ℕ × ℕ)}
    (h : isOverlapping st en ranges = false) :
    ∀ r ∈ ranges, overlapCond st en r = false := by
  unfold isOverlapping at h
  intro r hr
  rw [List.any_eq_false] at h
  exact Bool.eq_false_iff.mpr (h r hr)

theorem mkDetected_good {s : List Char} {i : ℕ} {m : RawMatch}
    (hlen : 1 ≤ m.len) (hb : i + m.len ≤ s.length) (hcode : m.code ≠ JPY)
    (hamt : ¬ parseAmount m.amountStr ≤ 0) : GoodDC s (mkDetected s i m) := by
  have hpos : 0 < parseAmount m.amountStr := not_le.mp hamt
  have hmax : parseAmount m.amountStr ≤ MAX_AMOUNT := by
    rcases parseAmount_cases m.amountStr with h0 | ⟨_, h2⟩
    · rw [h0] at hpos; exact absurd hpos (lt_irrefl 0)
    · exact h2
  have hsub : i + m.len - i = m.len := by omega
  refine ⟨hpos, hmax, hcode, ?_, ?_, ?_⟩
  · simp only [mkDetected]; omega
  · simp only [mkDetected, hsub]
  · simp only [mkDetected, hsub, slice, List.length_take, List.length_drop]
    omega

theorem processPattern_good {s : List Char} :
    ∀ {ms acc}, MatchListOk s ms → GoodAcc s acc → GoodAcc s (processPattern s ms acc) := by
  intro ms
  induction ms with
  | nil => intro acc _ hacc; simpa [processPattern]
  | cons im rest ih =>
    obtain ⟨i, m⟩ := im
    intro acc hok hacc
    have hok2 : MatchListOk s rest := fun x hx => hok x (List.mem_cons_of_mem _ hx)
    have hhead := hok (i, m) (List.mem_cons_self _ _)
    have hlen1 : 1 ≤ m.len := hhead.1
    have hbnd1 : i + m.len ≤ s.length := hhead.2
    unfold processPattern
    split
    next => exact ih hok2 hacc
    next hamt =>
      split
      next => exact ih hok2 hacc
      next hjpy =>
        split
        next => exact ih hok2 hacc
        next hov =>
          apply ih hok2
          obtain ⟨hmap, hgood, hpw⟩ := hacc
          have hovf : isOverlapping i (i + m.len) acc.2 = false := by
            revert hov
            cases isOverlapping i (i + m.len) acc.2 <;> simp
          have hcross : ∀ a ∈ acc.1, disjointDC a (mkDetected s i m) := by
            intro a ha
            have hspan : spanOf a ∈ acc.2 := by
              rw [hmap]
              exact List.mem_map_of_mem spanOf ha
            have hoc := isOverlapping_false hovf (spanOf a) hspan
            have hse := (hgood a ha).2.2.2.1
            have hd := not_overlap_disjoint hse (by omega) hoc
            simpa [disjointDC, mkDetected, spanOf] using hd
          refine ⟨?_, ?_, ?_⟩
          · simp only [List.map_append, hmap]
            rfl
          · intro d hd
            rcases List.mem_append.mp hd with hold | hnew
            · exact hgood d hold
            · rw [List.mem_singleton.mp hnew]
              exact mkDetected_good hlen1 hbnd1 hjpy hamt
          · rw [List.pairwise_append]
            refine ⟨hpw, List.pairwise_singleton _ _, ?_⟩
            intro a ha b hb
            rw [List.mem_singleton.mp hb]
            exact hcross a ha

theorem processAll_good {s : List Char} :
    ∀ {pms acc}, (∀ pm ∈ pms, MatchListOk s (scanPatternFrom pm s 0)) →
      GoodAcc s acc → GoodAcc s (processAll s pms acc) := by
  intro pms
  induction pms with
  | nil => intro acc _ hacc; simpa [processAll]
  | cons pm rest ih =>
    intro acc hok hacc
    unfold processAll
    rw [List.foldl_cons]
    exact ih (fun q hq => hok q (List.mem_cons_of_mem _ hq))
      (processPattern_good (hok pm (List.mem_cons_self _ _)) hacc)

theorem detect_core_good (s : List Char) : GoodAcc s (processAll s matchers ([], [])) :=
  processAll_good (fun pm hpm => scanPatternFrom_ok hpm s)
    ⟨rfl, fun d hd => absurd hd (List.not_mem_nil d), List.Pairwise.nil⟩

theorem disjointDC_symm : ∀ {a b : DetectedCurrency}, disjointDC a b → disjointDC b a := by
  intro a b h
  unfold disjointDC at *
  tauto

theorem mem_detectCurrencies_iff {s : List Char} {d : DetectedCurrency} :
    d ∈ detectCurrencies s ↔ d ∈ (processAll s matchers ([], [])).1 :=
  List.mem_insertionSort byStart

theorem detectCurrencies_goodDC {s : List Char} {d : DetectedCurrency}
    (h : d ∈ detectCurrencies s) : GoodDC s d :=
  (detect_core_good s).2.1 d (mem_detectCurrencies_iff.mp h)

theorem detectCurrencies_pairwise_disjoint (s : List Char) :
    List.Pairwise disjointDC (detectCurrencies s) := by
  have hperm := List.perm_insertionSort byStart (processAll s matchers ([], [])).1
  exact (List.Perm.pairwise_iff (fun hab => disjointDC_symm hab) hperm).mpr
    (detect_core_good s).2.2

theorem overlapCond_false_of_le {st en rs re : ℕ} (h1 : rs < re) (h2 : re ≤ st)
    (h3 : st < en) : overlapCond st en (rs, re) = false := by
  unfold overlapCond
  simp only [Bool.or_eq_false_iff, Bool.and_eq_false_iff, decide_eq_false_iff_not,
    not_le, not_lt]
  omega

theorem processPattern_accepts {s : List Char} :
    ∀ {ms acc},
      MatchListOk s ms →
      (∀ r ∈ acc.2, r.1 < r.2) →
      (∀ r ∈ acc.2, ∀ im ∈ ms, r.2 ≤ im.1) →
      List.Pairwise (fun a b => a.1 + a.2.len ≤ b.1) ms →
      ∀ im ∈ ms, ¬ parseAmount im.2.amountStr ≤ 0 → im.2.code ≠ JPY →
        mkDetected s im.1 im.2 ∈ (processPattern s ms acc).1 := by
  intro ms
  induction ms with
  | nil => intro acc _ _ _ _ im him; cases him
  | cons hd rest ih =>
    obtain ⟨i, m⟩ := hd
    intro acc hok hrg hsep hpw im him hamt hjpy
    have hok2 : MatchListOk s rest := fun x hx => hok x (List.mem_cons_of_mem _ hx)
    have hlen1 : 1 ≤ m.len := (hok (i, m) (List.mem_cons_self _ _)).1
    obtain ⟨hph, hpt⟩ := List.pairwise_cons.mp hpw
    unfold processPattern
    by_cases h1 : parseAmount m.amountStr ≤ 0
    · rw [if_pos h1]
      rcases List.mem_cons.mp him with heq | hrest
      · exact absurd (heq ▸ h1) hamt
      · exact ih hok2 hrg (fun r hr im2 him2 => hsep r hr im2 (List.mem_cons_of_mem _ him2))
          hpt im hrest hamt hjpy
    · rw [if_neg h1]
      by_cases h2 : m.code = JPY
      · rw [if_pos h2]
        rcases List.mem_cons.mp him with heq | hrest
        · exact absurd (heq ▸ h2) hjpy
        · exact ih hok2 hrg (fun r hr im2 him2 => hsep r hr im2 (List.mem_cons_of_mem _ him2))
            hpt im hrest hamt hjpy
      · rw [if_neg h2]
        have hovf : isOverlapping i (i + m.len) acc.2 = false := by
          unfold isOverlapping
          rw [List.any_eq_false]
          intro r hr
          obtain ⟨rs, re⟩ := r
          rw [overlapCond_false_of_le (hrg (rs, re) hr)
            (hsep (rs, re) hr (i, m) (List.mem_cons_self _ _)) (by omega)]
          simp
        rw [if_neg (by rw [hovf]; simp)]
        have hacc2 : ∀ r ∈ (acc.1 ++ [mkDetected s i m], acc.2 ++ [(i, i + m.len)]).2,
            r.1 < r.2 := by
          intro r hr
          rcases List.mem_append.mp hr with hold | hnewr
          · exact hrg r hold
          · rw [List.mem_singleton.mp hnewr]
            omega
        have hsep2 : ∀ r ∈ (acc.1 ++ [mkDetected s i m], acc.2 ++ [(i, i + m.len)]).2,
            ∀ im2 ∈ rest, r.2 ≤ im2.1 := by
          intro r hr im2 him2
          rcases List.mem_append.mp hr with hold | hnewr
          · exact le_trans (hsep r hold (i, m) (List.mem_cons_self _ _))
              (by have := hph im2 him2; omega)
          · rw [List.mem_singleton.mp hnewr]
            exact hph im2 him2
        rcases List.mem_cons.mp him with heq | hrest
        · rw [heq]
          exact processPattern_mem_mono (by simp)
        · exact ih hok2 hacc2 hsep2 hpt im hrest hamt hjpy

theorem processAll_mem_mono {s : List Char} {d : DetectedCurrency} :
    ∀ {pms acc}, d ∈ acc.1 → d ∈ (processAll s pms acc).1 := by
  intro pms
  induction pms with
  | nil => intro acc h; simpa [processAll]
  | cons pm rest ih =>
    intro acc h
    unfold processAll
    rw [List.foldl_cons]
    exact ih (processPattern_mem_mono h)

theorem p1_scan_pairwise (s : List Char) :
    List.Pairwise (fun a b => a.1 + a.2.len ≤ b.1) (scanPatternFrom p1MatchAt s 0) := by
  unfold scanPatternFrom
  exact scanAux_pairwise (fun j2 m2 h2 => (p1_props h2).1) (s.length + 1) 0

theorem p1_mem_matchers : p1MatchAt ∈ matchers := by
  unfold matchers
  exact List.mem_cons_self _ _

theorem p1_accepted {s : List Char} {j : ℕ} {m : RawMatch}
    (hm : (j, m) ∈ scanPatternFrom p1MatchAt s 0)
    (hamt : ¬ parseAmount m.amountStr ≤ 0) :
    mkDetected s j m ∈ (processAll s matchers ([], [])).1 := by
  have hmatch : p1MatchAt s j = some m := by
    unfold scanPatternFrom at hm
    exact (scanAux_mem hm).1
  have hstep : mkDetected s j m ∈
      (processPattern s (scanPatternFrom p1MatchAt s 0) ([], [])).1 :=
    processPattern_accepts (scanPatternFrom_ok p1_mem_matchers s)
      (fun r hr => absurd hr (List.not_mem_nil r))
      (fun r hr => absurd hr (List.not_mem_nil r))
      (p1_scan_pairwise s) (j, m) hm hamt (p1_props hmatch).2.2
  have hunf : processAll s matchers ([], []) =
      processAll s [p2MatchAt, p3MatchAt, p4MatchAt, p5MatchAt, p6MatchAt]
        (processPattern s (scanPatternFrom p1MatchAt s 0) ([], [])) := rfl
  rw [hunf]
  exact processAll_mem_mono hstep

theorem detectStatefulGo_fst {s : List Char} :
    ∀ {pms sts acc}, (detectStatefulGo s pms sts acc).1 = processAll s pms acc := by
  intro pms
  induction pms with
  | nil => intro sts acc; rfl
  | cons pm rest ih =>
    intro sts acc
    show (detectStatefulGo s rest sts.tail
      (processPattern s (scanPatternFrom pm s 0) acc)).1 = _
    rw [ih]
    rfl

theorem invertFold_not_mem {c : List Char} :
    ∀ {entries : List (List Char × ℚ)} {f}, c ∉ entries.map Prod.fst →
      entries.foldl (fun g e => setRate g e.1 (1 / e.2)) f c = f c := by
  intro entries
  induction entries with
  | nil => intro f _; rfl
  | cons e rest ih =>
    intro f hc
    simp only [List.map_cons, List.mem_cons, not_or] at hc
    rw [List.foldl_cons, ih hc.2]
    unfold setRate
    rw [if_neg hc.1]

theorem invertFold_mem {c : List Char} {x : ℚ} :
    ∀ {entries : List (List Char × ℚ)} {f}, (entries.map Prod.fst).Nodup →
      (c, x) ∈ entries →
      entries.foldl (fun g e => setRate g e.1 (1 / e.2)) f c = some (1 / x) := by
  intro entries
  induction entries with
  | nil => intro f _ h; cases h
  | cons e rest ih =>
    intro f hnd hmem
    rw [List.map_cons, List.nodup_cons] at hnd
    rcases List.mem_cons.mp hmem with heq | hrest
    · rw [List.foldl_cons]
      have hnotin : c ∉ rest.map Prod.fst := by rw [← heq] at hnd; exact hnd.1
      rw [invertFold_not_mem hnotin]
      unfold setRate
      rw [← heq]
      simp
    · rw [List.foldl_cons]
      exact ih hnd.2 hrest

theorem invertRates_mem {entries : List (List Char × ℚ)} {c : List Char} {x : ℚ}
    (hnd : (entries.map Prod.fst).Nodup) (h : (c, x) ∈ entries) :
    invertRates entries c = some (1 / x) :=
  invertFold_mem hnd h

theorem getRatesSlow_ok_memory {w : RateWorld} {now : ℕ} {st : CacheState} {c : CachedRates}
    (h : (getRatesSlow w now st).result = .ok c) :
    (getRatesSlow w now st).state.memoryCache = some c := by
  unfold getRatesSlow at h ⊢
  split at h
  next cached hst =>
    injection h with hc
    simp [hc]
  next hst =>
    unfold fetchAndStore at h ⊢
    split at h
    next hf => injection h
    next data hf =>
      injection h with hc
      simp [← hc]

theorem getRates_ok_memory {w : RateWorld} {now : ℕ} {st : CacheState} {c : CachedRates}
    (h : (getExchangeRates w now st).result = .ok c) :
    (getExchangeRates w now st).state.memoryCache = some c := by
  unfold getExchangeRates at h ⊢
  split at h
  next c2 hm =>
    split at h
    next hfresh =>
      rw [if_pos hfresh]
      injection h with hc
      show st.memoryCache = some c
      rw [hm, hc]
    next hfresh =>
      rw [if_neg hfresh]
      exact getRatesSlow_ok_memory h
  next hm =>
    exact getRatesSlow_ok_memory h

theorem getRates_fetches_le_one (w : RateWorld) (now : ℕ) (st : CacheState) :
    (getExchangeRates w now st).fetches ≤ 1 := by
  unfold getExchangeRates getRatesSlow fetchAndStore
  split
  · split
    · exact Nat.zero_le 1
    · split
      · exact Nat.zero_le 1
      · split <;> exact le_refl 1
  · split
    · exact Nat.zero_le 1
    · split <;> exact le_refl 1

theorem getRates_memory_fresh {w : RateWorld} {now : ℕ} {st : CacheState} {c : CachedRates}
    (hm : st.memoryCache = some c) (hfresh : now - c.fetchedAt < CACHE_DURATION) :
    getExchangeRates w now st = ⟨.ok c, st, 0, 0⟩ := by
  unfold getExchangeRates
  rw [hm]
  simp only []
  rw [if_pos hfresh]

theorem getRates_storage_fresh {w : RateWorld} {now : ℕ} {st : CacheState} {c : CachedRates}
    (hm : ∀ c2, st.memoryCache = some c2 → ¬ now - c2.fetchedAt < CACHE_DURATION)
    (hst : tryStorage w now st = some c) :
    getExchangeRates w now st = ⟨.ok c, ⟨some c, st.storedRates⟩, 0, 1⟩ := by
  have hslow : getRatesSlow w now st = ⟨.ok c, ⟨some c, st.storedRates⟩, 0, 1⟩ := by
    unfold getRatesSlow
    rw [hst]
  unfold getExchangeRates
  cases hmem : st.memoryCache with
  | none => exact hslow
  | some c2 =>
    simp only []
    rw [if_neg (hm c2 hmem)]
    exact hslow

theorem getRates_miss_fetch {w : RateWorld} {now : ℕ} {st : CacheState}
    (hm : ∀ c2, st.memoryCache = some c2 → ¬ now - c2.fetchedAt < CACHE_DURATION)
    (hst : tryStorage w now st = none) :
    getExchangeRates w now st = fetchAndStore w now st := by
  have hslow : getRatesSlow w now st = fetchAndStore w now st := by
    unfold getRatesSlow
    rw [hst]
  unfold getExchangeRates
  cases hmem : st.memoryCache with
  | none => exact hslow
  | some c2 =>
    simp only []
    rw [if_neg (hm c2 hmem)]
    exact hslow

theorem fetchAndStore_fetches (w : RateWorld) (now : ℕ) (st : CacheState) :
    (fetchAndStore w now st).fetches = 1 := by
  unfold fetchAndStore
  split <;> rfl

/-- Claim C1: for every input text, the list returned by `detectCurrencies`
is sorted by `startIndex` in ascending order and its `[startIndex,
endIndex)` spans are pairwise non-overlapping (each span ends no later than
the next one starts). -/
theorem detectCurrencies_sorted_nonoverlapping (s : List Char) :
    List.Sorted byStart (detectCurrencies s) ∧
    List.Pairwise (fun a b => a.endIndex ≤ b.startIndex) (detectCurrencies s) := by
  have hsorted : List.Sorted byStart (detectCurrencies s) :=
    List.sorted_insertionSort byStart _
  refine ⟨hsorted, ?_⟩
  have hdisj := detectCurrencies_pairwise_disjoint s
  have hcomb := List.Pairwise.and hsorted hdisj
  refine List.Pairwise.imp_of_mem ?_ hcomb
  intro a b ha hb hab
  have hgb := detectCurrencies_goodDC hb
  have hse : b.startIndex < b.endIndex := hgb.2.2.2.1
  have hle : a.startIndex ≤ b.startIndex := hab.1
  rcases hab.2 with h | h
  · exact h
  · omega

/-- Claim C3: every `DetectedCurrency` returned by `detectCurrencies`
satisfies `0 < amount ≤ 1e9`, `code ≠ JPY`, and `endIndex > startIndex`. -/
theorem detectCurrencies_invariants (s : List Char) :
    ∀ d ∈ detectCurrencies s,
      0 < d.amount ∧ d.amount ≤ (1000000000 : ℚ) ∧ d.code ≠ JPY ∧
        d.startIndex < d.endIndex := by
  intro d hd
  have hg := detectCurrencies_goodDC hd
  exact ⟨hg.1, hg.2.1, hg.2.2.1, hg.2.2.2.1⟩

/-- Witness for C3 at the input `"US$100 and HK$100"` and its first
detection. -/
theorem detectCurrencies_invariants_witness :
    0 < exUSD.amount ∧ exUSD.amount ≤ (1000000000 : ℚ) ∧ exUSD.code ≠ JPY ∧
      exUSD.startIndex < exUSD.endIndex :=
  detectCurrencies_invariants exText exUSD (by decide)

/-- Claim C10: every detection's `originalText` is exactly the
`[startIndex, endIndex)` slice of the scanned text, so `endIndex -
startIndex` equals its length and is positive. -/
theorem detectCurrencies_originalText (s : List Char) :
    ∀ d ∈ detectCurrencies s,
      d.originalText = slice s d.startIndex (d.endIndex - d.startIndex) ∧
      d.originalText.length = d.endIndex - d.startIndex ∧
      0 < d.endIndex - d.startIndex := by
  intro d hd
  have hg := detectCurrencies_goodDC hd
  have hse : d.startIndex < d.endIndex := hg.2.2.2.1
  exact ⟨hg.2.2.2.2.1, hg.2.2.2.2.2, by omega⟩

/-- Witness for C10 at the input `"$100"`. -/
theorem detectCurrencies_originalText_witness :
    exDollarUSD.originalText =
      slice exDollar exDollarUSD.startIndex (exDollarUSD.endIndex - exDollarUSD.startIndex) ∧
    exDollarUSD.originalText.length = exDollarUSD.endIndex - exDollarUSD.startIndex ∧
    0 < exDollarUSD.endIndex - exDollarUSD.startIndex :=
  detectCurrencies_originalText exDollar exDollarUSD (by decide)

/-- Claim C9: detection is deterministic and idempotent despite the
module-level regexes carrying mutable `lastIndex` state: the result list is
independent of the incoming state (the reset at tooltip.ts line 374), so a
second call fed the first call's outgoing state returns the identical
list. -/
theorem detectCurrencies_idempotent (sts : List ℕ) (s : List Char) :
    (detectCurrenciesStateful sts s).1 = detectCurrencies s ∧
    (detectCurrenciesStateful ((detectCurrenciesStateful sts s).2) s).1 =
      (detectCurrenciesStateful sts s).1 := by
  have h1 : ∀ sts2, (detectCurrenciesStateful sts2 s).1 = detectCurrencies s := by
    intro sts2
    unfold detectCurrenciesStateful detectCurrencies
    rw [detectStatefulGo_fst]
  exact ⟨h1 sts, by rw [h1, h1]⟩

/-- Claim C2 counterexample: on `"$100 USD 200"` the higher-priority
pattern-3 candidate `100 USD` at `[1, 8)` and the lower-priority pattern-4
candidate `USD 200` at `[5, 12)` overlap, yet `detectCurrencies` retains
the lower-priority one and drops the higher-priority one (which was itself
blocked by the pattern-2 acceptance of `$100` at `[0, 4)`), refuting the
claim that the higher-priority rule's candidate is always the one
retained. -/
theorem detect_priority_counterexample :
    (1, cexP3) ∈ scanPatternFrom p3MatchAt cexText 0 ∧
    (5, cexP4) ∈ scanPatternFrom p4MatchAt cexText 0 ∧
    5 < 1 + cexP3.len ∧
    detectCurrencies cexText =
      [⟨USD, 100, "$100".data, 0, 4⟩, mkDetected cexText 5 cexP4] ∧
    mkDetected cexText 1 cexP3 ∉ detectCurrencies cexText := by
  decide

/-- Claim C2 (amended): acceptance is greedy in rule-priority order, so a
higher-priority rule's candidate wins an overlap whenever it is itself
accepted: a candidate of the first-listed national-dollar rule with a
positive parsed amount — which nothing precedes — is always retained, and
no two distinct retained detections overlap, so any candidate overlapping
a retained one is excluded; a higher-priority candidate can lose only by
itself overlapping an earlier acceptance. In particular
`"US$100 and HK$100"` yields exactly the USD match then the HKD match via
the national-dollar prefix rule rather than the bare `$`-symbol rule. -/
theorem detect_priority_greedy :
    detectCurrencies exText = [exUSD, exHKD] ∧
    (∀ (s : List Char) (j : ℕ) (m : RawMatch),
      (j, m) ∈ scanPatternFrom p1MatchAt s 0 → 0 < parseAmount m.amountStr →
        mkDetected s j m ∈ detectCurrencies s ∧
        ∀ d ∈ detectCurrencies s, d ≠ mkDetected s j m →
          d.endIndex ≤ j ∨ j + m.len ≤ d.startIndex) ∧
    (∀ (s : List Char), ∀ d ∈ detectCurrencies s, ∀ e ∈ detectCurrencies s,
      d ≠ e → d.endIndex ≤ e.startIndex ∨ e.endIndex ≤ d.startIndex) := by
  refine ⟨by decide, ?_, ?_⟩
  · intro s j m hm hamt
    have hmem : mkDetected s j m ∈ detectCurrencies s :=
      mem_detectCurrencies_iff.mpr (p1_accepted hm (not_le.mpr hamt))
    refine ⟨hmem, ?_⟩
    intro d hd hne
    exact List.Pairwise.forall (fun a b hab => disjointDC_symm hab)
      (detectCurrencies_pairwise_disjoint s) hd hmem hne
  · intro s d hd e he hne
    exact List.Pairwise.forall (fun a b hab => disjointDC_symm hab)
      (detectCurrencies_pairwise_disjoint s) hd he hne

/-- Witness for the amended C2: the USD match of `"US$100 and HK$100"`
comes from the pattern-1 scan and is retained. -/
theorem detect_priority_greedy_witness :
    mkDetected exText 0 exRawUSD ∈ detectCurrencies exText :=
  (detect_priority_greedy.2.1 exText 0 exRawUSD (by decide) (by decide)).1

/-- Claim C4 counterexample: the claim says conversion fails with
`UnsupportedCurrency` if and only if the code has no entry, but with a
table carrying the entry `USD → 0` the conversion step fails although the
entry exists, because the source tests `!rate`, which is also true of a
zero rate. -/
theorem convert_zero_rate_counterexample :
    convertWithTable zeroRateTable 10 "USD".data =
      .error (.unsupportedCurrency "USD".data) ∧
    zeroRateTable.rates "USD".data = some 0 :=
  ⟨rfl, rfl⟩

/-- Claim C4 (amended): the conversion step fails with
`UnsupportedCurrency` iff the code's entry is missing or zero; for a
non-zero entry `r` it returns `{ yen := amount * r, rate := r, date :=
table.date }` with no rounding applied. -/
theorem convertWithTable_spec (t : CachedRates) (amount : ℚ) (c : List Char) :
    (convertWithTable t amount c = .error (.unsupportedCurrency c) ↔
      t.rates c = none ∨ t.rates c = some 0) ∧
    ∀ r, t.rates c = some r → r ≠ 0 →
      convertWithTable t amount c = .ok ⟨amount * r, r, t.date⟩ := by
  constructor
  · constructor
    · intro h
      unfold convertWithTable at h
      split at h
      next hn => exact Or.inl hn
      next r hs =>
        split at h
        next hz => exact Or.inr (hz ▸ hs)
        next hz => exact absurd h (by simp)
    · intro h
      unfold convertWithTable
      rcases h with h | h
      · rw [h]
      · rw [h]
        simp
  · intro r hr hz
    unfold convertWithTable
    rw [hr]
    simp only []
    rw [if_neg hz]

/-- Witness for C4 at the spec's scenario table `USD → 150`:
`convert(10, USD)` returns `{ yen := 1500, rate := 150 }`. -/
theorem convertWithTable_spec_witness :
    convertWithTable demoTable 10 "USD".data =
      .ok ⟨10 * 150, 150, "2024-01-01".data⟩ :=
  (convertWithTable_spec demoTable 10 "USD".data).2 150 rfl (by norm_num)

/-- Claim C5: on a successful remote fetch (both cache tiers missing), the
returned table maps every remotely returned code (the overridden reference
self-entry apart) to the reciprocal `1 / X` of the returned factor, maps
`JPY` to exactly `1`, stamps `fetchedAt = now`, stores the table into both
tiers, and returns it. -/
theorem getRates_fetch_builds_table (w : RateWorld) (now : ℕ) (st : CacheState)
    (data : ExchangeRateResponse)
    (hm : ∀ c2, st.memoryCache = some c2 → ¬ now - c2.fetchedAt < CACHE_DURATION)
    (hst : tryStorage w now st = none)
    (hf : w.fetchResponse = some data)
    (hw : w.storageWriteFails = false)
    (hnd : (data.rates.map Prod.fst).Nodup) :
    (getExchangeRates w now st).result = .ok (builtTable data now) ∧
    (builtTable data now).rates jpyKey = some 1 ∧
    (∀ c x, (c, x) ∈ data.rates → c ≠ jpyKey →
      (builtTable data now).rates c = some (1 / x)) ∧
    (builtTable data now).fetchedAt = now ∧
    (getExchangeRates w now st).state.memoryCache = some (builtTable data now) ∧
    (getExchangeRates w now st).state.storedRates = some (builtTable data now) ∧
    (getExchangeRates w now st).fetches = 1 := by
  have hmain := getRates_miss_fetch hm hst
  have hfs : fetchAndStore w now st =
      ⟨.ok (builtTable data now),
       ⟨some (builtTable data now), some (builtTable data now)⟩, 1, 1⟩ := by
    unfold fetchAndStore
    rw [hf]
    simp only []
    rw [hw]
    simp
  rw [hmain, hfs]
  refine ⟨rfl, ?_, ?_, rfl, rfl, rfl, rfl⟩
  · show setRate (invertRates data.rates) jpyKey 1 jpyKey = some 1
    unfold setRate
    rw [if_pos rfl]
  · intro c x hcx hne
    show setRate (invertRates data.rates) jpyKey 1 c = some (1 / x)
    unfold setRate
    rw [if_neg hne]
    exact invertRates_mem hnd hcx

/-- Witness for C5: a fetch against empty caches with the response
`{ USD ↦ 1/150 }` returns the built table. -/
theorem getRates_fetch_builds_table_witness :
    (getExchangeRates demoWorld 0 emptyState).result =
      .ok (builtTable demoResponse 0) :=
  (getRates_fetch_builds_table demoWorld 0 emptyState demoResponse
    (fun c2 h => Option.noConfusion h) rfl rfl rfl (by decide)).1

/-- Claim C6: a fresh in-process table is returned with no I/O; a fresh
persisted table is promoted into the in-process slot and returned with no
fetch; every call performs at most one fetch; a second call made while the
table returned by the first is still inside the 1-hour TTL performs no
fetch and returns the same table (so two such calls fetch at most once);
and a call that misses both tiers performs exactly one fetch. -/
theorem getRates_ttl_single_fetch :
    (∀ w now st c, st.memoryCache = some c → now - c.fetchedAt < CACHE_DURATION →
      getExchangeRates w now st = ⟨.ok c, st, 0, 0⟩) ∧
    (∀ w now st c,
      (∀ c2, st.memoryCache = some c2 → ¬ now - c2.fetchedAt < CACHE_DURATION) →
      tryStorage w now st = some c →
      getExchangeRates w now st = ⟨.ok c, ⟨some c, st.storedRates⟩, 0, 1⟩) ∧
    (∀ w now st, (getExchangeRates w now st).fetches ≤ 1) ∧
    (∀ w1 w2 now1 now2 st c, (getExchangeRates w1 now1 st).result = .ok c →
      now2 - c.fetchedAt < CACHE_DURATION →
      getExchangeRates w2 now2 (getExchangeRates w1 now1 st).state =
        ⟨.ok c, (getExchangeRates w1 now1 st).state, 0, 0⟩) ∧
    (∀ w now st,
      (∀ c2, st.memoryCache = some c2 → ¬ now - c2.fetchedAt < CACHE_DURATION) →
      tryStorage w now st = none → (getExchangeRates w now st).fetches = 1) := by
  refine ⟨fun w now st c hmc hfr => getRates_memory_fresh hmc hfr,
    fun w now st c hmc hself => getRates_storage_fresh hmc hself,
    getRates_fetches_le_one, ?_, ?_⟩
  · intro w1 w2 now1 now2 st c hok hfresh
    exact getRates_memory_fresh (getRates_ok_memory hok) hfresh
  · intro w now st hmc hst
    rw [getRates_miss_fetch hmc hst]
    exact fetchAndStore_fetches w now st

/-- Witness for C6: a call at the very moment a cached table was fetched
returns it with no I/O. -/
theorem getRates_ttl_single_fetch_witness :
    getExchangeRates demoWorld 1000 ⟨some freshTable, none⟩ =
      ⟨.ok freshTable, ⟨some freshTable, none⟩, 0, 0⟩ :=
  getRates_ttl_single_fetch.1 demoWorld 1000 ⟨some freshTable, none⟩ freshTable
    rfl (by decide)

/-- Claim C7: persisted-cache failures never reach the caller: with a
throwing read the call behaves (result, fetch count, in-process slot) as if
the persisted tier were simply empty, and with a throwing write the freshly
fetched table is still placed in the in-process cache and returned. -/
theorem storage_failures_not_propagated :
    (∀ w now st, w.storageReadFails = true →
      (getExchangeRates w now st).result =
        (getExchangeRates ⟨false, w.storageWriteFails, w.fetchResponse⟩ now
          ⟨st.memoryCache, none⟩).result ∧
      (getExchangeRates w now st).fetches =
        (getExchangeRates ⟨false, w.storageWriteFails, w.fetchResponse⟩ now
          ⟨st.memoryCache, none⟩).fetches ∧
      (getExchangeRates w now st).state.memoryCache =
        (getExchangeRates ⟨false, w.storageWriteFails, w.fetchResponse⟩ now
          ⟨st.memoryCache, none⟩).state.memoryCache) ∧
    (∀ w now st data,
      (∀ c2, st.memoryCache = some c2 → ¬ now - c2.fetchedAt < CACHE_DURATION) →
      tryStorage w now st = none → w.fetchResponse = some data →
      (getExchangeRates w now st).result = .ok (builtTable data now) ∧
      (getExchangeRates w now st).state.memoryCache = some (builtTable data now)) := by
  constructor
  · intro w now st hrf
    have hts : tryStorage w now st = none := by
      unfold tryStorage
      rw [if_pos hrf]
    cases hmem : st.memoryCache with
    | some c =>
      by_cases hfr : now - c.fetchedAt < CACHE_DURATION
      · rw [getRates_memory_fresh hmem hfr,
          @getRates_memory_fresh ⟨false, w.storageWriteFails, w.fetchResponse⟩ now
            ⟨some c, none⟩ c rfl hfr]
        exact ⟨rfl, rfl, hmem⟩
      · have hm1 : ∀ c2, st.memoryCache = some c2 →
            ¬ now - c2.fetchedAt < CACHE_DURATION := by
          intro c2 h2
          rw [hmem] at h2
          injection h2 with he
          rw [← he]
          exact hfr
        have hm2 : ∀ c2, (⟨some c, none⟩ : CacheState).memoryCache = some c2 →
            ¬ now - c2.fetchedAt < CACHE_DURATION := by
          intro c2 h2
          injection h2 with he
          rw [← he]
          exact hfr
        rw [getRates_miss_fetch hm1 hts,
          @getRates_miss_fetch ⟨false, w.storageWriteFails, w.fetchResponse⟩ now
            ⟨some c, none⟩ hm2 rfl]
        unfold fetchAndStore
        cases hfe : w.fetchResponse with
        | none => exact ⟨rfl, rfl, hmem⟩
        | some data => exact ⟨rfl, rfl, rfl⟩
    | none =>
      have hm1 : ∀ c2, st.memoryCache = some c2 →
          ¬ now - c2.fetchedAt < CACHE_DURATION := by
        intro c2 h2
        rw [hmem] at h2
        exact Option.noConfusion h2
      rw [getRates_miss_fetch hm1 hts,
        @getRates_miss_fetch ⟨false, w.storageWriteFails, w.fetchResponse⟩ now
          ⟨none, none⟩ (fun c2 h2 => Option.noConfusion h2) rfl]
      unfold fetchAndStore
      cases hfe : w.fetchResponse with
      | none => exact ⟨rfl, rfl, hmem⟩
      | some data => exact ⟨rfl, rfl, rfl⟩
  · intro w now st data hm1 hst hfe
    rw [getRates_miss_fetch hm1 hst]
    unfold fetchAndStore
    rw [hfe]
    exact ⟨rfl, rfl⟩

/-- Witness for C7: a read failure against empty caches yields the same
result as a clean read of an empty persisted tier. -/
theorem storage_failures_not_propagated_witness :
    (getExchangeRates ⟨true, false, some demoResponse⟩ 0 emptyState).result =
      (getExchangeRates ⟨false, false, some demoResponse⟩ 0 ⟨none, none⟩).result :=
  (storage_failures_not_propagated.1 ⟨true, false, some demoResponse⟩ 0
    emptyState rfl).1

/-- Claim C8: `detectFromTargetElement` returns a match only when the
element's text length is within bounds (at most 50 characters generic, 100
for a custom/compound widget), the bounding box contains the point within
a 5px tolerance, and the box is below the 150×60 (generic) / 200×100
(custom/compound) size thresholds. -/
theorem detectFromTargetElement_only_when (el : DomElement) (x y : ℚ)
    (d : DetectedCurrency) (h : detectFromTargetElement el x y = some d) :
    (elementText el).length ≤ (if elIsCustom el then 100 else 50) ∧
    el.rect.width ≤ (if elIsCustom el then (200 : ℚ) else 150) ∧
    el.rect.height ≤ (if elIsCustom el then (100 : ℚ) else 60) ∧
    el.rect.left - 5 ≤ x ∧ x ≤ el.rect.right + 5 ∧
    el.rect.top - 5 ≤ y ∧ y ≤ el.rect.bottom + 5 := by
  unfold detectFromTargetElement at h
  split at h
  next => exact Option.noConfusion h
  next htag =>
    split at h
    next => exact Option.noConfusion h
    next hlen =>
      split at h
      next => exact Option.noConfusion h
      next hsize =>
        split at h
        next hbounds =>
          push_neg at hlen hsize
          refine ⟨?_, ?_, ?_, hbounds.1, hbounds.2.1, hbounds.2.2.1, hbounds.2.2.2⟩
          · have h2 : (elementText el).length ≤ elMaxLength el := hlen.2
            unfold elMaxLength at h2
            exact h2
          · have h2 : el.rect.width ≤ elMaxWidth el := hsize.1
            unfold elMaxWidth at h2
            exact h2
          · have h2 : el.rect.height ≤ (60 : ℚ) := hsize.2
            by_cases hc : elIsCustom el = true
            · rw [if_pos hc]
              exact le_trans h2 (by norm_num)
            · rw [if_neg hc]
              exact h2
        next => exact Option.noConfusion h

/-- Witness for C8: a small `span` showing `$100` hovered at an interior
point produces a match, so the conditions hold of it. -/
theorem detectFromTargetElement_only_when_witness :
    (elementText demoElement).length ≤ (if elIsCustom demoElement then 100 else 50) ∧
    demoElement.rect.width ≤ (if elIsCustom demoElement then (200 : ℚ) else 150) ∧
    demoElement.rect.height ≤ (if elIsCustom demoElement then (100 : ℚ) else 60) ∧
    demoElement.rect.left - 5 ≤ 10 ∧ (10 : ℚ) ≤ demoElement.rect.right + 5 ∧
    demoElement.rect.top - 5 ≤ 10 ∧ (10 : ℚ) ≤ demoElement.rect.bottom + 5 :=
  detectFromTargetElement_only_when demoElement 10 10 exDollarUSD (by
    unfold detectFromTargetElement
    rw [if_neg (show ¬ excludedTags.contains (elTag demoElement) = true by decide)]
    rw [if_neg (show ¬ ((elementText demoElement).length < 1 ∨
      (elementText demoElement).length > elMaxLength demoElement) by decide)]
    rw [if_neg (show ¬ (demoElement.rect.width > elMaxWidth demoElement ∨
      demoElement.rect.height > (60 : ℚ)) by decide)]
    rw [if_pos (show (10 : ℚ) ≥ demoElement.rect.left - 5 ∧
      (10 : ℚ) ≤ demoElement.rect.right + 5 ∧ (10 : ℚ) ≥ demoElement.rect.top - 5 ∧
      (10 : ℚ) ≤ demoElement.rect.bottom + 5 by
        unfold demoElement
        norm_num)]
    decide)

end CurrencyToYen
